import Mathlib

/-!
Verification of the PDF tilted-text extraction / correction / comparison pipeline
(`app.py`). The Python source is embedded shallowly:

* PyMuPDF spans are records of `text` and `angle`; the document is the nested
  page → block → line → span structure the code iterates over.
* The external collaborators (PDF rasteriser + OCR engine, TextBlob correction)
  are inputs of the pipeline model: the OCR step is an `Option String` (`none`
  models the engine raising), the corrector is a `String → String` parameter.
* `difflib.ndiff` (the diff engine the code calls) is embedded faithfully from
  the CPython `difflib` source: `SequenceMatcher` (with its `autojunk`
  popularity filter and junk handling) and `Differ.compare` (including
  `_fancy_replace`, the intraline `? ` guide lines and the 0.74/0.75 ratio
  cutoffs).  Python float ratios are modelled as exact rationals; the
  comparisons performed here are far from the rounding error of an IEEE
  double, so the branch decisions agree with CPython on all inputs considered.
* Python machine behaviour used by the code: `str.split()` splits on
  whitespace runs and drops empty pieces; `str.split('.')` keeps empty pieces;
  `list.extend`, `max`, list padding and `zip` are the corresponding list
  operations; `s[2:]` drops two characters.
-/

/-- A single quote character, used inside the HTML style strings and the Python
list repr. -/
def sQuote : String := String.singleton (Char.ofNat 39)

/-- Split a character list at every character satisfying `p`, keeping empty
pieces — the semantics of Python `str.split(sep)` with an explicit
separator. -/
def splitChGo (p : Char → Bool) : List Char → List (List Char)
  | [] => [[]]
  | c :: cs =>
    if p c then [] :: splitChGo p cs
    else
      match splitChGo p cs with
      | [] => [[c]]
      | h :: t => (c :: h) :: t

/-- Python `str.rstrip()` on a character list. -/
def rstripL (l : List Char) : List Char :=
  (l.reverse.dropWhile Char.isWhitespace).reverse

/-- Python `str.strip()`: drop leading and trailing whitespace. -/
def pyStrip (s : String) : String :=
  String.mk (rstripL (s.data.dropWhile Char.isWhitespace))

/-- Python `str.split()` with no argument: split on whitespace runs, dropping
empty pieces. -/
def pySplit (s : String) : List String :=
  ((splitChGo (fun c => c.isWhitespace) s.data).map String.mk).filter (fun w => w ≠ "")

/-- Python `abs` on the exact rationals modelling the float fields. -/
def ratAbs (q : ℚ) : ℚ := if q < 0 then -q else q

/-- Python `s.startswith(p)`, expressed on the character lists of the two
strings. -/
def pyStartsWith (s p : String) : Bool :=
  p.data.isPrefixOf s.data

/-- Python `s[2:]`: drop the first two characters. -/
def pyDrop2 (s : String) : String :=
  String.mk (s.data.drop 2)

/-- Python `repr` of a list of strings, as used by the f-string report lines:
`['Helo']`. -/
def pyReprList (l : List String) : String :=
  "[" ++ String.intercalate (", ") (l.map (fun w => sQuote ++ w ++ sQuote)) ++ "]"

/-- A PyMuPDF text span: the `text` and `angle` fields read by
`extract_with_pymupdf`.  The rotation angle (degrees) is modelled as an exact
rational. -/
structure Span where
  text : String
  angle : ℚ
deriving DecidableEq

/-- A line is the list of its spans (`line.get("spans", [])`). -/
abbrev SpanLine := List Span

/-- A block is the list of its lines (`block.get("lines", [])`). -/
abbrev SpanBlock := List SpanLine

/-- A page is the list of blocks of its text dict (`page.get_text("dict")["blocks"]`). -/
abbrev SpanPage := List SpanBlock

/-- A document is its list of pages. -/
abbrev PdfDoc := List SpanPage

/-- All spans of the document in iteration order of the four nested `for`
loops of `extract_with_pymupdf`. -/
def docSpans (doc : PdfDoc) : List Span :=
  doc.flatMap (fun page => page.flatMap (fun block => block.flatMap (fun line => line)))

/-- One iteration of the span loop body of `extract_with_pymupdf`: the
accumulator is the pair (text, tilted_words). -/
def extractStep (acc : String × List String) (span : Span) : String × List String :=
  let span_text := pyStrip span.text
  if span_text = "" then acc
  else
    let tilted := if 1 < ratAbs span.angle then acc.2 ++ pySplit span_text else acc.2
    (acc.1 ++ " " ++ span_text, tilted)

/-- `extract_with_pymupdf(doc)`: concatenate the trimmed span texts
(space-prefixed, final strip) and collect the words of spans with
`abs(angle) > 1` into the `tilted_words` list. -/
def extract_with_pymupdf (doc : PdfDoc) : String × List String :=
  let r := (docSpans doc).foldl extractStep ("", [])
  (pyStrip r.1, r.2)

/-- The opening tag of the green bold span used by `highlight_tilted`. -/
def greenBoldOpen : String :=
  "<span style=" ++ sQuote ++ "color:green;font-weight:bold" ++ sQuote ++ ">"

/-- `highlight_tilted(text, tilted_words)`: split on whitespace, wrap the
tokens that occur in `tilted_words` in a green bold span, rejoin with single
spaces. -/
def highlight_tilted (text : String) (tilted_words : List String) : String :=
  let words := pySplit text
  let out := words.map (fun w =>
    if w ∈ tilted_words then greenBoldOpen ++ w ++ "</span>" else w)
  String.intercalate (" ") out

/-- The sentence split of the main logic:
`[s.strip() for s in text.split('.') if s.strip()]`. -/
def sentencesOf (s : String) : List String :=
  (((splitChGo (fun c => c = '.') s.data).map (fun l => pyStrip (String.mk l)))).filter
    (fun x => x ≠ "")

/-- The sentence aligner of the main logic: split both texts, right-pad the
shorter list with `""` to `max_len`, zip positionally. -/
def alignSentences (o c : String) : List (String × String) :=
  let os := sentencesOf o
  let cs := sentencesOf c
  let maxLen := max os.length cs.length
  (os ++ List.replicate (maxLen - os.length) "").zip
    (cs ++ List.replicate (maxLen - cs.length) "")

/-! ## `difflib.SequenceMatcher`

Embedded from the CPython `difflib` source.  Dictionaries are modelled as
functions, `b2j` as the ascending list of positions of a value in `b`. -/

/-- The positions of `v` in `b`, ascending: the `b2j` entry built by
`__chain_b` before junk and popular elements are deleted. -/
def b2jRaw {α : Type} [DecidableEq α] (b : List α) (v : α) : List Nat :=
  (List.range b.length).filter (fun j => b.get? j = some v)

/-- `__chain_b`'s autojunk rule: with `autojunk` on and `len(b) >= 200`, a
non-junk element appearing more than `len(b) // 100 + 1` times is popular. -/
def isPopularElt {α : Type} [DecidableEq α] (isjunk : α → Bool) (autojunk : Bool)
    (b : List α) (v : α) : Bool :=
  autojunk && decide (200 ≤ b.length) && !isjunk v &&
    decide (b.length / 100 + 1 < (b2jRaw b v).length)

/-- The `b2j` mapping after `__chain_b` deleted junk and popular entries. -/
def b2jOf {α : Type} [DecidableEq α] (isjunk : α → Bool) (autojunk : Bool)
    (b : List α) (v : α) : List Nat :=
  if isjunk v || isPopularElt isjunk autojunk b v then [] else b2jRaw b v

/-- Inner loop of `find_longest_match` over the `b2j` positions `j` of `a[i]`:
`newj2len[j] = j2len.get(j-1, 0) + 1`, updating the best block on a strictly
longer chain.  (`j2len.get(-1, 0)` is 0, hence the `j = 0` case.) -/
def flmInner (j2lenOld : Nat → Nat) (i : Nat) :
    List Nat → (Nat → Nat) → Nat × Nat × Nat → (Nat → Nat) × (Nat × Nat × Nat)
  | [], acc, best => (acc, best)
  | j :: js, acc, best =>
    let k := (if j = 0 then 0 else j2lenOld (j - 1)) + 1
    let acc2 := fun j2 => if j2 = j then k else acc j2
    let best2 := if best.2.2 < k then (i + 1 - k, j + 1 - k, k) else best
    flmInner j2lenOld i js acc2 best2

/-- Outer loop of `find_longest_match` over `i` in `range(alo, ahi)`.  The
`continue`/`break` on `j < blo` / `j >= bhi` is the `takeWhile`/`filter`
below. -/
def flmOuter {α : Type} [DecidableEq α] [Inhabited α] (a : List α)
    (b2j : α → List Nat) (blo bhi : Nat) :
    List Nat → (Nat → Nat) → Nat × Nat × Nat → (Nat → Nat) × (Nat × Nat × Nat)
  | [], j2len, best => (j2len, best)
  | i :: is, j2len, best =>
    let js := ((b2j (a.getD i default)).takeWhile (fun j => j < bhi)).filter
      (fun j => blo ≤ j)
    let r := flmInner j2len i js (fun _ => 0) best
    flmOuter a b2j blo bhi is r.1 r.2

/-- One of the four widening `while` loops at the end of `find_longest_match`:
extend the best block backwards over equal elements whose junk flag is
`wantJunk`.  The recursion is fuelled: `besti` strictly decreases, so the
`besti + 1` fuel passed by `findLongestMatch` always outlasts the loop. -/
def extBack {α : Type} [DecidableEq α] [Inhabited α] (wantJunk : Bool)
    (isjunk : α → Bool) (a b : List α) (alo blo : Nat) :
    Nat → Nat × Nat × Nat → Nat × Nat × Nat
  | 0, st => st
  | fuel + 1, st =>
    if alo < st.1 ∧ blo < st.2.1 ∧ isjunk (b.getD (st.2.1 - 1) default) = wantJunk ∧
        a.getD (st.1 - 1) default = b.getD (st.2.1 - 1) default then
      extBack wantJunk isjunk a b alo blo fuel (st.1 - 1, st.2.1 - 1, st.2.2 + 1)
    else st

/-- Forward version of `extBack`; `ahi - (besti + bestsize)` strictly
decreases, so the `ahi + 1` fuel passed by `findLongestMatch` always outlasts
the loop. -/
def extFwd {α : Type} [DecidableEq α] [Inhabited α] (wantJunk : Bool)
    (isjunk : α → Bool) (a b : List α) (ahi bhi : Nat) :
    Nat → Nat × Nat × Nat → Nat × Nat × Nat
  | 0, st => st
  | fuel + 1, st =>
    if st.1 + st.2.2 < ahi ∧ st.2.1 + st.2.2 < bhi ∧
        isjunk (b.getD (st.2.1 + st.2.2) default) = wantJunk ∧
        a.getD (st.1 + st.2.2) default = b.getD (st.2.1 + st.2.2) default then
      extFwd wantJunk isjunk a b ahi bhi fuel (st.1, st.2.1, st.2.2 + 1)
    else st

/-- `find_longest_match(alo, ahi, blo, bhi)`. -/
def findLongestMatch {α : Type} [DecidableEq α] [Inhabited α] (isjunk : α → Bool)
    (a b : List α) (b2j : α → List Nat) (alo ahi blo bhi : Nat) : Nat × Nat × Nat :=
  let chain := flmOuter a b2j blo bhi (List.range' alo (ahi - alo)) (fun _ => 0)
    (alo, blo, 0)
  let s1 := extBack false isjunk a b alo blo (chain.2.1 + 1) chain.2
  let s2 := extFwd false isjunk a b ahi bhi (ahi + 1) s1
  let s3 := extBack true isjunk a b alo blo (s2.1 + 1) s2
  extFwd true isjunk a b ahi bhi (ahi + 1) s3

/-- The queue loop of `get_matching_blocks`; the queue is a stack popped from
its head, with the upper-right sub-rectangle pushed last (hence popped first,
as in the Python list).  The recursion is fuelled: every iteration either
just pops, or pops a rectangle and pushes sub-rectangles whose total
half-perimeter is smaller by at least `2 * k ≥ 2`, so
`a.length + b.length + 1` iterations always suffice for the initial queue
`[(0, la, 0, lb)]`. -/
def mbQueue {α : Type} [DecidableEq α] [Inhabited α] (isjunk : α → Bool)
    (a b : List α) (b2j : α → List Nat) :
    Nat → List (Nat × Nat × Nat × Nat) → List (Nat × Nat × Nat) →
    List (Nat × Nat × Nat)
  | 0, _, acc => acc
  | _ + 1, [], acc => acc
  | fuel + 1, (alo, ahi, blo, bhi) :: rest, acc =>
    let m := findLongestMatch isjunk a b b2j alo ahi blo bhi
    if m.2.2 ≠ 0 then
      let q1 := if alo < m.1 ∧ blo < m.2.1 then (alo, m.1, blo, m.2.1) :: rest else rest
      let q2 := if m.1 + m.2.2 < ahi ∧ m.2.1 + m.2.2 < bhi then
          (m.1 + m.2.2, ahi, m.2.1 + m.2.2, bhi) :: q1 else q1
      mbQueue isjunk a b b2j fuel q2 (acc ++ [m])
    else mbQueue isjunk a b b2j fuel rest acc

/-- Stable insertion of `x` into a sorted list: `x` goes before the first
element `y` with `le x y`. -/
def insertSorted {α : Type} (le : α → α → Bool) (x : α) : List α → List α
  | [] => [x]
  | y :: ys => if le x y then x :: y :: ys else y :: insertSorted le x ys

/-- Stable insertion sort; agrees with Python `list.sort()` (a stable sort)
for any total `le`. -/
def sortLe {α : Type} (le : α → α → Bool) : List α → List α
  | [] => []
  | x :: xs => insertSorted le x (sortLe le xs)

/-- Ascending lexicographic order on matching-block triples
(`matching_blocks.sort()`). -/
def lexLeTriple (x y : Nat × Nat × Nat) : Bool :=
  if x.1 ≠ y.1 then x.1 < y.1
  else if x.2.1 ≠ y.2.1 then x.2.1 < y.2.1
  else x.2.2 ≤ y.2.2

/-- The adjacent-block merging pass of `get_matching_blocks` (building
`non_adjacent`), started from `(0, 0, 0)`. -/
def collapseGo : Nat × Nat × Nat → List (Nat × Nat × Nat) → List (Nat × Nat × Nat)
  | (i1, j1, k1), [] => if k1 ≠ 0 then [(i1, j1, k1)] else []
  | (i1, j1, k1), (i2, j2, k2) :: rest =>
    if i1 + k1 = i2 ∧ j1 + k1 = j2 then collapseGo (i1, j1, k1 + k2) rest
    else (if k1 ≠ 0 then [(i1, j1, k1)] else []) ++ collapseGo (i2, j2, k2) rest

/-- `get_matching_blocks()`, including the `(la, lb, 0)` terminator. -/
def getMatchingBlocks {α : Type} [DecidableEq α] [Inhabited α] (isjunk : α → Bool)
    (autojunk : Bool) (a b : List α) : List (Nat × Nat × Nat) :=
  let b2j := b2jOf isjunk autojunk b
  let raw := mbQueue isjunk a b b2j (a.length + b.length + 1)
    [(0, a.length, 0, b.length)] []
  collapseGo (0, 0, 0) (sortLe lexLeTriple raw) ++ [(a.length, b.length, 0)]

/-- The `difflib` opcode tags. -/
inductive DTag where
  | replace
  | delete
  | insert
  | equal
deriving DecidableEq

/-- An opcode `(tag, i1, i2, j1, j2)`. -/
abbrev Opcode := DTag × Nat × Nat × Nat × Nat

/-- The loop of `get_opcodes()` over the matching blocks. -/
def opcodesGo : Nat → Nat → List (Nat × Nat × Nat) → List Opcode
  | _, _, [] => []
  | i, j, (ai, bj, size) :: rest =>
    (if i < ai ∧ j < bj then [(DTag.replace, i, ai, j, bj)]
     else if i < ai then [(DTag.delete, i, ai, j, bj)]
     else if j < bj then [(DTag.insert, i, ai, j, bj)]
     else []) ++
    (if size ≠ 0 then [(DTag.equal, ai, ai + size, bj, bj + size)] else []) ++
    opcodesGo (ai + size) (bj + size) rest

/-- `get_opcodes()`. -/
def getOpcodes {α : Type} [DecidableEq α] [Inhabited α] (isjunk : α → Bool)
    (autojunk : Bool) (a b : List α) : List Opcode :=
  opcodesGo 0 0 (getMatchingBlocks isjunk autojunk a b)

/-- `_calculate_ratio`, with Python's float division taken exactly. -/
def calcRatioQ (m len : Nat) : ℚ :=
  if len ≠ 0 then mkRat (2 * m) len else 1

/-- Total size of the matching blocks. -/
def matchSizeSum (blocks : List (Nat × Nat × Nat)) : Nat :=
  (blocks.map (fun t => t.2.2)).sum

/-- `SequenceMatcher.ratio()`. -/
def ratioQ {α : Type} [DecidableEq α] [Inhabited α] (isjunk : α → Bool)
    (autojunk : Bool) (a b : List α) : ℚ :=
  calcRatioQ (matchSizeSum (getMatchingBlocks isjunk autojunk a b))
    (a.length + b.length)

/-- `SequenceMatcher.quick_ratio()`: multiset-intersection upper bound,
tracked with the `avail` dict (values may go negative, hence `ℤ`). -/
def quickRatioQ {α : Type} [DecidableEq α] (a b : List α) : ℚ :=
  let fullb := fun v => ((b.filter (fun x => x = v)).length : ℤ)
  let r := a.foldl (fun (st : (α → Option ℤ) × Nat) elt =>
    let numb : ℤ := match st.1 elt with
      | some z => z
      | none => fullb elt
    ((fun v => if v = elt then some (numb - 1) else st.1 v),
      if 0 < numb then st.2 + 1 else st.2)) ((fun _ => none), 0)
  calcRatioQ r.2 (a.length + b.length)

/-- `SequenceMatcher.real_quick_ratio()`. -/
def realQuickRatioQ {α : Type} (a b : List α) : ℚ :=
  calcRatioQ (min a.length b.length) (a.length + b.length)

/-! ## `difflib.Differ` and `ndiff` -/

/-- `IS_CHARACTER_JUNK`: blanks and tabs. -/
def charJunk (c : Char) : Bool := c = ' ' || c = Char.ofNat 9

/-- The character-level cruncher's `ratio()` used by `_fancy_replace`
(`SequenceMatcher(charjunk)` on the two token strings). -/
def charRatioQ (x y : String) : ℚ := ratioQ charJunk true x.data y.data

/-- Character-level `quick_ratio()`. -/
def charQuickRatioQ (x y : String) : ℚ := quickRatioQ x.data y.data

/-- Character-level `real_quick_ratio()`. -/
def charRealQuickRatioQ (x y : String) : ℚ := realQuickRatioQ x.data y.data

/-- Character-level opcodes of the two synch tokens (`cruncher.set_seqs`). -/
def charOpcodes (x y : String) : List Opcode := getOpcodes charJunk true x.data y.data

/-- `Differ._dump(tag, x, lo, hi)`: one `'%s %s' % (tag, x)` line per element
of the slice. -/
def dumpD (tag : String) (x : List String) (lo hi : Nat) : List String :=
  ((x.drop lo).take (hi - lo)).map (fun s => tag ++ " " ++ s)

/-- `Differ._plain_replace`. -/
def plainReplace (a : List String) (alo ahi : Nat) (b : List String)
    (blo bhi : Nat) : List String :=
  if bhi - blo < ahi - alo then dumpD ("+") b blo bhi ++ dumpD ("-") a alo ahi
  else dumpD ("-") a alo ahi ++ dumpD ("+") b blo bhi

/-- `_keep_original_ws(s, tag_s)`. -/
def keepOriginalWs (s tags : List Char) : List Char :=
  (s.zip tags).map (fun p => if p.2 = ' ' ∧ p.1.isWhitespace then p.1 else p.2)

/-- The `atags`/`btags` accumulation of `_fancy_replace` over the
character-level opcodes. -/
def tagsOfOpcodes (ops : List Opcode) : List Char × List Char :=
  ops.foldl (fun (st : List Char × List Char) op =>
    match op.1 with
    | DTag.replace => (st.1 ++ List.replicate (op.2.2.1 - op.2.1) '^',
                       st.2 ++ List.replicate (op.2.2.2.2 - op.2.2.2.1) '^')
    | DTag.delete => (st.1 ++ List.replicate (op.2.2.1 - op.2.1) '-', st.2)
    | DTag.insert => (st.1, st.2 ++ List.replicate (op.2.2.2.2 - op.2.2.2.1) '+')
    | DTag.equal => (st.1 ++ List.replicate (op.2.2.1 - op.2.1) ' ',
                     st.2 ++ List.replicate (op.2.2.2.2 - op.2.2.2.1) ' '))
    ([], [])

/-- `Differ._qformat`: the `- `/`+ ` pair with their optional `? ` guide
lines (note the guide lines carry a trailing newline in `difflib`). -/
def qformat (aline bline : String) : List String :=
  let ts := tagsOfOpcodes (charOpcodes aline bline)
  let atags := String.mk (rstripL (keepOriginalWs aline.data ts.1))
  let btags := String.mk (rstripL (keepOriginalWs bline.data ts.2))
  ["- " ++ aline] ++ (if atags ≠ "" then ["? " ++ atags ++ "\n"] else []) ++
  ["+ " ++ bline] ++ (if btags ≠ "" then ["? " ++ btags ++ "\n"] else [])

/-- The state of the `_fancy_replace` scan: `(best_ratio, best_i, best_j)`
once updated (`none` while `best_ratio` is still the initial `0.74`), and
`(eqi, eqj)`, the first identical pair. -/
abbrev ScanState := Option (ℚ × Nat × Nat) × Option (Nat × Nat)

/-- One comparison step of the `_fancy_replace` scan. -/
def fancyStep (a b : List String) (j i : Nat) (st : ScanState) : ScanState :=
  let ai := a.getD i ""
  let bj := b.getD j ""
  if ai = bj then
    (st.1, if st.2 = none then some (i, j) else st.2)
  else
    let br : ℚ := match st.1 with
      | some t => t.1
      | none => mkRat 74 100
    if br < charRealQuickRatioQ ai bj ∧ br < charQuickRatioQ ai bj ∧
        br < charRatioQ ai bj then
      (some (charRatioQ ai bj, i, j), st.2)
    else st

/-- The inner `for i in range(alo, ahi)` loop of the scan. -/
def fancyScanInner (a b : List String) (j : Nat) : List Nat → ScanState → ScanState
  | [], st => st
  | i :: is, st => fancyScanInner a b j is (fancyStep a b j i st)

/-- The outer `for j in range(blo, bhi)` loop of the scan. -/
def fancyScanOuter (a b : List String) (alo ahi : Nat) :
    List Nat → ScanState → ScanState
  | [], st => st
  | j :: js, st =>
    fancyScanOuter a b alo ahi js
      (fancyScanInner a b j (List.range' alo (ahi - alo)) st)

/-- The double scan of `_fancy_replace` over `j in range(blo, bhi)` and
`i in range(alo, ahi)`. -/
def fancyScan (a : List String) (alo ahi : Nat) (b : List String)
    (blo bhi : Nat) : ScanState :=
  fancyScanOuter a b alo ahi (List.range' blo (bhi - blo)) (none, none)

/-- `Differ._fancy_helper`, parameterised by the recursive call so the
mutual recursion with `_fancy_replace` is structural on the fuel. -/
def fancyHelperG (fr : List String → Nat → Nat → List String → Nat → Nat → List String)
    (a : List String) (alo ahi : Nat) (b : List String) (blo bhi : Nat) :
    List String :=
  if alo < ahi then
    if blo < bhi then fr a alo ahi b blo bhi else dumpD ("-") a alo ahi
  else if blo < bhi then dumpD ("+") b blo bhi else []

/-- `Differ._fancy_replace`.  The recursion is fuelled: every nested call
strictly decreases `(ahi - alo) + (bhi - blo)`, so the fuel passed by
`differCompare` (the half-perimeter plus one) always suffices and the
fuel-exhausted branch is never taken. -/
def fancyReplace : Nat → List String → Nat → Nat → List String → Nat → Nat →
    List String
  | 0, _, _, _, _, _, _ => []
  | fuel + 1, a, alo, ahi, b, blo, bhi =>
    let scan := fancyScan a alo ahi b blo bhi
    let cutoff : ℚ := mkRat 3 4
    let br : ℚ := match scan.1 with
      | some t => t.1
      | none => mkRat 74 100
    if br < cutoff then
      match scan.2 with
      | none => plainReplace a alo ahi b blo bhi
      | some e =>
        fancyHelperG (fancyReplace fuel) a alo e.1 b blo e.2 ++
        ["  " ++ a.getD e.1 ""] ++
        fancyHelperG (fancyReplace fuel) a (e.1 + 1) ahi b (e.2 + 1) bhi
    else
      match scan.1 with
      | some t =>
        fancyHelperG (fancyReplace fuel) a alo t.2.1 b blo t.2.2 ++
        qformat (a.getD t.2.1 "") (b.getD t.2.2 "") ++
        fancyHelperG (fancyReplace fuel) a (t.2.1 + 1) ahi b (t.2.2 + 1) bhi
      | none => []

/-- `Differ.compare` for the default `ndiff` junk settings (`linejunk=None`,
so the word-level matcher has no junk; `autojunk` on).  `replace` opcodes go
through `_fancy_replace`. -/
def differCompare (a b : List String) : List String :=
  (getOpcodes (fun _ => false) true a b).flatMap (fun op =>
    match op.1 with
    | DTag.replace => fancyReplace ((op.2.2.1 - op.2.1) + (op.2.2.2.2 - op.2.2.2.1) + 1)
        a op.2.1 op.2.2.1 b op.2.2.2.1 op.2.2.2.2
    | DTag.delete => dumpD ("-") a op.2.1 op.2.2.1
    | DTag.insert => dumpD ("+") b op.2.2.2.1 op.2.2.2.2
    | DTag.equal => dumpD (" ") a op.2.1 op.2.2.1)

/-- `difflib.ndiff(a, b)` on word lists, as called by the app. -/
def ndiffS (a b : List String) : List String := differCompare a b

/-! ## Main logic (the `if uploaded_file:` block) -/

/-- The Agent 4 loop over the global diff, collecting `added` and `removed`
from the `"+ "`/`"- "` prefixed lines. -/
def addedRemoved (diff : List String) : List String × List String :=
  diff.foldl (fun st d =>
    if pyStartsWith d ("+ ") then (st.1 ++ [pyDrop2 d], st.2)
    else if pyStartsWith d ("- ") then (st.1, st.2 ++ [pyDrop2 d])
    else st) ([], [])

/-- The green span of the per-sentence diff rendering. -/
def greenOpen : String := "<span style=" ++ sQuote ++ "color:green" ++ sQuote ++ ">"

/-- The red span of the per-sentence diff rendering. -/
def redOpen : String := "<span style=" ++ sQuote ++ "color:red" ++ sQuote ++ ">"

/-- The per-sentence diff rendering loop (building `diff_html` for one
sentence pair): `+ ` lines become green spans, `- ` lines red spans, and every
other line — unchanged lines and `? ` guide lines alike — contributes its
`d[2:]` tail verbatim. -/
def renderSentenceDiff (o c : String) : List String :=
  (ndiffS (pySplit o) (pySplit c)).foldl (fun acc d =>
    if pyStartsWith d ("+ ") then acc ++ [greenOpen ++ pyDrop2 d ++ "</span>"]
    else if pyStartsWith d ("- ") then acc ++ [redOpen ++ pyDrop2 d ++ "</span>"]
    else acc ++ [pyDrop2 d]) []

/-- The observable state a completed run produces. -/
structure MainResult where
  report : List String
  combined : String
  corrected : String
  added : List String
  removed : List String
  finalDisplay : String
  pairs : List (String × String)
  diffRows : List (List String)
deriving DecidableEq

/-- The main pipeline.  `ocrOutcome` is the external OCR collaborator's
outcome on the first page — `some t` when `extract_with_ocr` returns `t`,
`none` when it (or `doc[0]`) raises, in which case the `except` branch only
appends the failure report line and leaves `ocr_text` unbound.  `corrector`
is the external TextBlob correction collaborator.  The result is `none` when
the run aborts: `combined_text = raw_text if raw_text else ocr_text` raises
`NameError` when `raw_text` is empty and `ocr_text` was never assigned. -/
def runMain (doc : PdfDoc) (ocrOutcome : Option String)
    (corrector : String → String) : Option MainResult :=
  let ext := extract_with_pymupdf doc
  let raw_text := ext.1
  let tilted_words := ext.2
  let r1 := "Agent 1 (PyMuPDF): Extracted " ++ toString (pySplit raw_text).length ++
    " words, Tilted=" ++ pyReprList tilted_words
  let r2 := match ocrOutcome with
    | some t => "Agent 2 (OCR): Extracted " ++ toString (pySplit t).length ++ " words"
    | none => "Agent 2 (OCR): Failed"
  match (if raw_text ≠ "" then some raw_text else ocrOutcome) with
  | none => none
  | some combined =>
    let corrected := corrector combined
    let r3 := "Agent 3 (Correction): Corrected text length=" ++
      toString (pySplit corrected).length
    let diff := ndiffS (pySplit combined) (pySplit corrected)
    let ar := addedRemoved diff
    let r4 := "Agent 4 (Comparison): Added=" ++ pyReprList ar.1 ++ ", Removed=" ++
      pyReprList ar.2 ++ ", Tilted fixed=" ++ pyReprList tilted_words
    let finalDisplay := highlight_tilted corrected tilted_words
    let prs := alignSentences combined corrected
    some { report := [r1, r2, r3, r4], combined := combined,
           corrected := corrected, added := ar.1, removed := ar.2,
           finalDisplay := finalDisplay, pairs := prs,
           diffRows := prs.map (fun p => renderSentenceDiff p.1 p.2) }

/-- The specification's DiffEntry vocabulary: `difflib` lines begin with
`"  "`, `"+ "`, `"- "` or `"? "`; the token of an entry is the `d[2:]` tail
the code reads. -/
inductive DiffEntry where
  | unchanged (t : String)
  | added (t : String)
  | removed (t : String)
  | guide (t : String)
deriving DecidableEq

/-- Classify `difflib` lines by their prefix, as the code's
`startswith` chains do. -/
def toEntries (diff : List String) : List DiffEntry :=
  diff.map (fun d =>
    if pyStartsWith d ("+ ") then DiffEntry.added (pyDrop2 d)
    else if pyStartsWith d ("- ") then DiffEntry.removed (pyDrop2 d)
    else if pyStartsWith d ("? ") then DiffEntry.guide (pyDrop2 d)
    else DiffEntry.unchanged (pyDrop2 d))

/-! ## Concrete inputs used by the theorems -/

/-- A document with one page whose single line holds the same word twice in
tilted spans. -/
def docDup : PdfDoc := [[[[⟨"bad", 5⟩, ⟨"bad", 5⟩]]]]

/-- The end-to-end scenario document: spans `Helo` (tilted 5°) and
`world.` (upright). -/
def docE2E : PdfDoc := [[[[⟨"Helo", 5⟩, ⟨"world.", 0⟩]]]]

/-- The end-to-end corrector stub: fixes `Helo world.` and is the identity
elsewhere. -/
def corrE2E : String → String :=
  fun s => if s = "Helo world." then "Hello world." else s

/-! ## Helper lemmas -/

/-- `getD` of a `zip` is the pair of the `getD`s, below the common length. -/
theorem zip_getD {α β : Type} (l : List α) (m : List β) (d1 : α) (d2 : β)
    (i : Nat) (h1 : i < l.length) (h2 : i < m.length) :
    (l.zip m).getD i (d1, d2) = (l.getD i d1, m.getD i d2) := by
  induction l generalizing m i with
  | nil => simp at h1
  | cons x xs ih =>
    cases m with
    | nil => simp at h2
    | cons y ys =>
      cases i with
      | zero => simp [List.getD]
      | succ n =>
        simp only [List.zip_cons_cons, List.getD_cons_succ]
        exact ih ys n (by simpa using h1) (by simpa using h2)

/-- The tilted-word component of the extraction fold, as a `flatMap` over the
spans. -/
theorem foldl_extractStep_tilted (spans : List Span) (acc : String × List String) :
    (spans.foldl extractStep acc).2 =
      acc.2 ++ spans.flatMap (fun s =>
        if pyStrip s.text ≠ "" ∧ 1 < ratAbs s.angle
        then pySplit (pyStrip s.text) else []) := by
  induction spans generalizing acc with
  | nil => simp
  | cons s rest ih =>
    simp only [List.foldl_cons, List.flatMap_cons, ih]
    unfold extractStep
    by_cases h1 : pyStrip s.text = "" <;> by_cases h2 : 1 < ratAbs s.angle <;>
      simp [h1, h2]

/-! ## Claim theorems -/

/-- C1: the OCR `except` branch appends the `Agent 2 (OCR): Failed` report
line but never assigns `ocr_text`; when the primary extraction is also empty,
`combined_text = raw_text if raw_text else ocr_text` raises `NameError` and
the run aborts (`none`) instead of completing with an empty OCR text.  With
non-empty primary text the run does complete, with the failure line in the
report. -/
theorem c1_ocr_failure_evaluation :
    runMain [] none (fun s => s) = none ∧
    ("Agent 2 (OCR): Failed") ∈ (runMain docE2E none corrE2E).elim [] MainResult.report ∧
    (runMain docE2E none corrE2E).isSome = true := by decide

/-- C2 (counterexample): with the same word in two tilted spans, the
collected `tilted_words` list holds it twice — it is not a set of distinct
tokens. -/
theorem c2_counterexample :
    (extract_with_pymupdf docDup).2 = ["bad", "bad"] ∧
    2 ≤ (extract_with_pymupdf docDup).2.count ("bad") := by decide

/-- C2 (amended): the tilted-word collection is the concatenation, in
document order, of the whitespace-separated words of every span with
non-empty stripped text and `abs(angle) > 1`; a token occurs once per such
occurrence, so it can repeat. -/
theorem c2_tilted_collection (doc : PdfDoc) :
    (extract_with_pymupdf doc).2 =
      (docSpans doc).flatMap (fun s =>
        if pyStrip s.text ≠ "" ∧ 1 < ratAbs s.angle
        then pySplit (pyStrip s.text) else []) := by
  unfold extract_with_pymupdf
  exact foldl_extractStep_tilted (docSpans doc) ("", [])

/-- C4: the tilt boundary is exclusive at 1: a span at angle `1.0`
contributes no tilted words, while `1.01` and `-1.01` contribute all the
whitespace-separated words of the (stripped) span text. -/
theorem c4_tilt_threshold (t : String) :
    (extract_with_pymupdf [[[[⟨t, 1⟩]]]]).2 = [] ∧
    (extract_with_pymupdf [[[[⟨t, mkRat 101 100⟩]]]]).2 = pySplit (pyStrip t) ∧
    (extract_with_pymupdf [[[[⟨t, mkRat (-101) 100⟩]]]]).2 = pySplit (pyStrip t) := by
  have habs1 : ¬ ((1 : ℚ) < ratAbs 1) := by decide
  have habs2 : (1 : ℚ) < ratAbs (mkRat 101 100) := by decide
  have habs3 : (1 : ℚ) < ratAbs (mkRat (-101) 100) := by decide
  have hsplit : pySplit "" = [] := by decide
  refine ⟨?_, ?_, ?_⟩ <;>
  · unfold extract_with_pymupdf docSpans extractStep
    by_cases h : pyStrip t = "" <;>
      simp [h, habs1, habs2, habs3, hsplit]

/-- C5: the diff of `["a","b","c"]` against `["a","c","d"]` is exactly
Unchanged(a), Removed(b), Unchanged(c), Added(d), in that order. -/
theorem c5_diff_example :
    toEntries (ndiffS ["a", "b", "c"] ["a", "c", "d"]) =
      [DiffEntry.unchanged ("a"), DiffEntry.removed ("b"),
       DiffEntry.unchanged ("c"), DiffEntry.added ("d")] := by decide

/-- C3 (counterexample): on the token sequences `["Helo","world"]` and
`["Hello","world"]` the diff engine emits the intraline guide line
`"?    +\n"` — a fourth kind of entry beyond Unchanged/Added/Removed — and
the per-sentence rendering passes its tail `"   +\n"`, which is not a token
of either input, straight into the output. -/
theorem c3_counterexample :
    ndiffS (pySplit ("Helo world")) (pySplit ("Hello world")) =
      ["- Helo", "+ Hello", "?    +\n", "  world"] ∧
    toEntries (ndiffS (pySplit ("Helo world")) (pySplit ("Hello world"))) =
      [DiffEntry.removed ("Helo"), DiffEntry.added ("Hello"),
       DiffEntry.guide ("   +\n"), DiffEntry.unchanged ("world")] ∧
    renderSentenceDiff ("Helo world") ("Hello world") =
      [redOpen ++ "Helo" ++ "</span>", greenOpen ++ "Hello" ++ "</span>",
       "   +\n", "world"] ∧
    ("   +\n") ∉ pySplit ("Helo world") ++ pySplit ("Hello world") := by decide

/-- `getD` of a `replicate` at its own element. -/
theorem getD_replicate_self {α : Type} (n i : Nat) (d : α) :
    (List.replicate n d).getD i d = d := by
  induction n generalizing i with
  | zero => simp [List.getD]
  | succ m ih =>
    cases i with
    | zero => simp
    | succ k => simp only [List.replicate_succ, List.getD_cons_succ]; exact ih k

/-- C7: the aligner splits on periods, trims, drops empties, right-pads with
empty strings to `max` length and zips positionally; on `"One. Two."` vs
`"One. Two. Three."` it yields exactly the three stated pairs. -/
theorem c7_sentence_aligner (o c : String) :
    (alignSentences o c).length =
      max (sentencesOf o).length (sentencesOf c).length ∧
    (∀ i, i < max (sentencesOf o).length (sentencesOf c).length →
      (alignSentences o c).getD i ("", "") =
        ((sentencesOf o).getD i "", (sentencesOf c).getD i "")) ∧
    alignSentences ("One. Two.") ("One. Two. Three.") =
      [("One", "One"), ("Two", "Two"), ("", "Three")] := by
  refine ⟨?_, ?_, by decide⟩
  · unfold alignSentences
    simp only [List.length_zip, List.length_append, List.length_replicate]
    omega
  · intro i hi
    unfold alignSentences
    have hpadlen : ∀ (l : List String) (k : Nat),
        (l ++ List.replicate k "").length = l.length + k := by
      intro l k; simp
    have hpad : ∀ (l : List String) (k : Nat),
        (l ++ List.replicate k "").getD i "" = l.getD i "" := by
      intro l k
      by_cases hil : i < l.length
      · exact List.getD_append l _ "" i hil
      · rw [List.getD_append_right l _ "" i (by omega), getD_replicate_self,
          List.getD_eq_default l _ (by omega)]
    rw [zip_getD _ _ _ _ i (by rw [hpadlen]; omega) (by rw [hpadlen]; omega),
      hpad, hpad]

/-- C7 witness: the theorem applied to the spec's example at index 2. -/
theorem c7_witness :
    (alignSentences ("One. Two.") ("One. Two. Three.")).getD 2 ("", "") =
      ((sentencesOf ("One. Two.")).getD 2 "",
        (sentencesOf ("One. Two. Three.")).getD 2 "") :=
  (c7_sentence_aligner ("One. Two.") ("One. Two. Three.")).2.1 2 (by decide)

/-- C8: the highlighter marks exactly the whitespace-separated tokens that
are members of the tilted collection (every occurrence), passes the others
through unchanged, rejoins with single spaces; `"bad bad"` against
`{"bad"}` marks both occurrences. -/
theorem c8_highlight_contract (text : String) (tw : List String) :
    highlight_tilted text tw =
      String.intercalate (" ") ((pySplit text).map (fun w =>
        if w ∈ tw then greenBoldOpen ++ w ++ "</span>" else w)) ∧
    (∀ w, w ∈ pySplit text → w ∈ tw →
      (if w ∈ tw then greenBoldOpen ++ w ++ "</span>" else w) =
        greenBoldOpen ++ w ++ "</span>") ∧
    (∀ w, w ∈ pySplit text → w ∉ tw →
      (if w ∈ tw then greenBoldOpen ++ w ++ "</span>" else w) = w) ∧
    highlight_tilted ("bad bad") ["bad"] =
      greenBoldOpen ++ "bad" ++ "</span>" ++ " " ++
        (greenBoldOpen ++ "bad" ++ "</span>") := by
  refine ⟨rfl, ?_, ?_, by decide⟩
  · intro w _ hw; simp [hw]
  · intro w _ hw; simp [hw]

/-- C8 witness: the theorem applied to the `"bad bad"` example, marking the
member token. -/
theorem c8_witness :
    (if ("bad" : String) ∈ ["bad"] then greenBoldOpen ++ "bad" ++ "</span>"
     else "bad") = greenBoldOpen ++ "bad" ++ "</span>" :=
  (c8_highlight_contract ("bad bad") ["bad"]).2.1 ("bad") (by decide) (by decide)

/-- C9: with an empty selected text (and the external corrector mapping the
empty string to itself, as the spec states), every downstream stage
degenerates: the correction is empty, the word diff of the two empty token
sequences has zero entries (and empty Added/Removed summaries), the sentence
splits are empty, and the aligner yields zero pairs.  All stages are total
functions, so no exception is possible. -/
theorem c9_empty_degenerate (corrector : String → String)
    (h : corrector "" = "") :
    corrector "" = "" ∧
    ndiffS (pySplit "") (pySplit (corrector "")) = [] ∧
    addedRemoved (ndiffS (pySplit "") (pySplit (corrector ""))) = ([], []) ∧
    sentencesOf "" = [] ∧ sentencesOf (corrector "") = [] ∧
    alignSentences "" (corrector "") = [] := by
  rw [h]
  exact ⟨rfl, by decide, by decide, by decide, by decide, by decide⟩

/-- C9 witness: the theorem at the identity corrector. -/
theorem c9_witness :
    (fun s => s) "" = "" ∧
    ndiffS (pySplit "") (pySplit ((fun s => s) "")) = [] ∧
    addedRemoved (ndiffS (pySplit "") (pySplit ((fun s => s) ""))) = ([], []) ∧
    sentencesOf "" = [] ∧ sentencesOf ((fun s => s) "") = [] ∧
    alignSentences "" ((fun s => s) "") = [] :=
  c9_empty_degenerate (fun s => s) rfl

/-- A default `MainResult` used to state closed facts about an optional run. -/
def mrDefault : MainResult := ⟨[], "", "", [], [], "", [], []⟩

/-- C10: the final corrected display is produced by highlighting the
corrected text against the tilted-word collection gathered from the original
document, so a corrected-text token is marked exactly when its spelling is a
member of that original collection; in the end-to-end scenario the tilted
`Helo` is corrected to `Hello` and therefore nothing is marked in the final
display. -/
theorem c10_display_keyed_to_original (doc : PdfDoc) (ocr : Option String)
    (corrector : String → String) (r : MainResult)
    (h : runMain doc ocr corrector = some r) :
    (r.finalDisplay = highlight_tilted r.corrected (extract_with_pymupdf doc).2 ∧
     r.finalDisplay = String.intercalate (" ") ((pySplit r.corrected).map (fun w =>
       if w ∈ (extract_with_pymupdf doc).2 then greenBoldOpen ++ w ++ "</span>"
       else w))) ∧
    (runMain docE2E none corrE2E).elim "" MainResult.finalDisplay = "Hello world." := by
  refine ⟨?_, by decide⟩
  unfold runMain at h
  dsimp only at h
  split at h
  · exact absurd h (by simp)
  · cases h; exact ⟨rfl, rfl⟩

/-- C10 witness: the theorem applied to the end-to-end run. -/
theorem c10_witness :
    ((runMain docE2E none corrE2E).getD mrDefault).finalDisplay =
      highlight_tilted ((runMain docE2E none corrE2E).getD mrDefault).corrected
        (extract_with_pymupdf docE2E).2 :=
  (c10_display_keyed_to_original docE2E none corrE2E _ (by decide)).1.1

/-! ## Classification of diff lines (infrastructure for C3) -/

/-- The entry forms of the amended C3: an Unchanged/Removed token of `a`, an
Added token of `b`, or an intraline `? ` guide line. -/
def EntryForms (a b : List String) (l : String) : Prop :=
  (∃ t, t ∈ a ∧ l = "  " ++ t) ∨ (∃ t, t ∈ a ∧ l = "- " ++ t) ∨
  (∃ t, t ∈ b ∧ l = "+ " ++ t) ∨ pyStartsWith l ("? ") = true

/-- A fold preserves any invariant its steps preserve. -/
theorem foldlInv {α β : Type} (f : β → α → β) (P : β → Prop) :
    ∀ (l : List α) (init : β), P init → (∀ st x, x ∈ l → P st → P (f st x)) →
      P (l.foldl f init) := by
  intro l
  induction l with
  | nil => intro init h0 _; exact h0
  | cons x xs ih =>
    intro init h0 hstep
    exact ih (f init x) (hstep init x (by simp) h0)
      (fun st y hy => hstep st y (by simp [hy]))

/-- An in-range `getD` is a member. -/
theorem getD_mem_of_lt {α : Type} (l : List α) (i : Nat) (d : α)
    (h : i < l.length) : l.getD i d ∈ l := by
  rw [List.getD_eq_getElem _ _ h]
  exact List.getElem_mem h

/-- A string starts with its own prefix. -/
theorem pyStartsWith_append (p x : String) : pyStartsWith (p ++ x) p = true := by
  simp [pyStartsWith, String.data_append, List.isPrefixOf_iff_prefix]

/-- Every element of `dumpD` is the tagged form of a member of the slice. -/
theorem dumpD_mem (tag : String) (x : List String) (lo hi : Nat) (l : String)
    (h : l ∈ dumpD tag x lo hi) : ∃ t, t ∈ x ∧ l = tag ++ " " ++ t := by
  unfold dumpD at h
  obtain ⟨t, ht, rfl⟩ := List.mem_map.mp h
  exact ⟨t, List.mem_of_mem_drop (List.mem_of_mem_take ht), rfl⟩

/-- `_plain_replace` only emits `- ` lines from `a` and `+ ` lines from `b`. -/
theorem plainReplace_forms (a : List String) (alo ahi : Nat) (b : List String)
    (blo bhi : Nat) (l : String) (h : l ∈ plainReplace a alo ahi b blo bhi) :
    EntryForms a b l := by
  unfold plainReplace at h
  split at h <;> rcases List.mem_append.mp h with h2 | h2 <;>
    obtain ⟨t, ht, rfl⟩ := dumpD_mem _ _ _ _ _ h2
  · exact Or.inr (Or.inr (Or.inl ⟨t, ht, rfl⟩))
  · exact Or.inr (Or.inl ⟨t, ht, rfl⟩)
  · exact Or.inr (Or.inl ⟨t, ht, rfl⟩)
  · exact Or.inr (Or.inr (Or.inl ⟨t, ht, rfl⟩))

/-- `_qformat` emits the `- `/`+ ` pair plus `? ` guide lines. -/
theorem qformat_forms (a b : List String) (aline bline : String)
    (ha : aline ∈ a) (hb : bline ∈ b) (l : String)
    (h : l ∈ qformat aline bline) : EntryForms a b l := by
  unfold qformat at h
  rcases List.mem_append.mp h with h1 | h2
  · rcases List.mem_append.mp h1 with h3 | h4
    · rcases List.mem_append.mp h3 with h5 | h6
      · rw [List.mem_singleton.mp h5]
        exact Or.inr (Or.inl ⟨aline, ha, rfl⟩)
      · split at h6
        · rw [List.mem_singleton.mp h6]
          exact Or.inr (Or.inr (Or.inr (pyStartsWith_append _ _)))
        · simp at h6
    · rw [List.mem_singleton.mp h4]
      exact Or.inr (Or.inr (Or.inl ⟨bline, hb, rfl⟩))
  · split at h2
    · rw [List.mem_singleton.mp h2]
      exact Or.inr (Or.inr (Or.inr (pyStartsWith_append _ _)))
    · simp at h2

/-- Invariant on the chain dictionary: every value `k` at key `j` satisfies
`k + blo ≤ j + 1` and `k + alo ≤ t` (`t` is one past the last processed
index), unless the key is unset (value 0). -/
def PjInv (alo blo t : Nat) (j2len : Nat → Nat) : Prop :=
  ∀ j, j2len j = 0 ∨ (j2len j + blo ≤ j + 1 ∧ j2len j + alo ≤ t)

/-- Invariant on the best block: still the initial `(alo, blo, 0)`, or a
non-empty block ending within the `[.., ahi) × [.., bhi)` rectangle. -/
def PbInv (alo blo ahi bhi : Nat) (best : Nat × Nat × Nat) : Prop :=
  best = (alo, blo, 0) ∨
    (0 < best.2.2 ∧ best.1 + best.2.2 ≤ ahi ∧ best.2.1 + best.2.2 ≤ bhi)

/-- The chain-dictionary bound is monotone in its index bound. -/
theorem PjInv_mono (alo blo t t2 : Nat) (h : t ≤ t2) (j2len : Nat → Nat)
    (hp : PjInv alo blo t j2len) : PjInv alo blo t2 j2len := by
  intro j
  rcases hp j with h1 | h1
  · exact Or.inl h1
  · exact Or.inr ⟨h1.1, h1.2.trans h⟩

/-- One step of the inner chain loop preserves both invariants. -/
theorem flmInner_inv (alo blo ahi bhi : Nat) (j2lenOld : Nat → Nat) (i : Nat)
    (hlo : alo ≤ i) (hhi : i < ahi) (hold : PjInv alo blo i j2lenOld) :
    ∀ (js : List Nat) (acc : Nat → Nat) (best : Nat × Nat × Nat),
      (∀ j, j ∈ js → blo ≤ j ∧ j < bhi) →
      PjInv alo blo (i + 1) acc → PbInv alo blo ahi bhi best →
      PjInv alo blo (i + 1) (flmInner j2lenOld i js acc best).1 ∧
      PbInv alo blo ahi bhi (flmInner j2lenOld i js acc best).2 := by
  intro js
  induction js with
  | nil =>
    intro acc best _ ha hb
    exact ⟨ha, hb⟩
  | cons j js ih =>
    intro acc best hjs ha hb
    have hj : blo ≤ j ∧ j < bhi := hjs j (by simp)
    have hk : ((if j = 0 then 0 else j2lenOld (j - 1)) + 1) + blo ≤ j + 1 ∧
        ((if j = 0 then 0 else j2lenOld (j - 1)) + 1) + alo ≤ i + 1 := by
      by_cases hj0 : j = 0
      · rw [if_pos hj0]
        omega
      · rw [if_neg hj0]
        rcases hold (j - 1) with h1 | h1 <;> omega
    simp only [flmInner]
    apply ih
    · intro j2 hj2
      exact hjs j2 (by simp [hj2])
    · intro j2
      by_cases hj2 : j2 = j
      · subst hj2
        right
        simpa using hk
      · simpa [hj2] using ha j2
    · by_cases hbest : best.2.2 < (if j = 0 then 0 else j2lenOld (j - 1)) + 1
      · simp only [if_pos hbest]
        right
        refine ⟨?_, ?_, ?_⟩ <;> dsimp only <;> omega
      · simpa [hbest] using hb

/-- The outer chain loop over `range' s m` preserves the best-block
invariant. -/
theorem flmOuter_inv {α : Type} [DecidableEq α] [Inhabited α] (a : List α)
    (b2j : α → List Nat) (alo blo ahi bhi : Nat) :
    ∀ (m s : Nat) (j2len : Nat → Nat) (best : Nat × Nat × Nat),
      alo ≤ s → s + m ≤ ahi →
      PjInv alo blo s j2len → PbInv alo blo ahi bhi best →
      PbInv alo blo ahi bhi
        (flmOuter a b2j blo bhi (List.range' s m) j2len best).2 := by
  intro m
  induction m with
  | zero =>
    intro s j2len best _ _ _ hb
    simpa [flmOuter] using hb
  | succ m ih =>
    intro s j2len best hs hm hj hb
    rw [List.range'_succ]
    simp only [flmOuter]
    have hjs : ∀ j, j ∈ ((b2j (a.getD s default)).takeWhile
        (fun j => j < bhi)).filter (fun j => blo ≤ j) → blo ≤ j ∧ j < bhi := by
      intro j hmem
      have h1 := List.mem_filter.mp hmem
      refine ⟨by simpa using h1.2, ?_⟩
      have h2 := List.mem_takeWhile_imp h1.1
      simpa using h2
    have hinner := flmInner_inv alo blo ahi bhi j2len s hs (by omega) hj _
      (fun _ => 0) best hjs (fun j => Or.inl rfl) hb
    exact ih (s + 1) _ _ (by omega) (by omega)
      (PjInv_mono alo blo (s + 1) (s + 1) (by omega) _ hinner.1) hinner.2

/-- The backward widening loops preserve the best-block invariant. -/
theorem extBack_inv {α : Type} [DecidableEq α] [Inhabited α] (wantJunk : Bool)
    (isjunk : α → Bool) (a b : List α) (alo blo ahi bhi : Nat) :
    ∀ (fuel : Nat) (st : Nat × Nat × Nat), PbInv alo blo ahi bhi st →
      PbInv alo blo ahi bhi (extBack wantJunk isjunk a b alo blo fuel st) := by
  intro fuel
  induction fuel with
  | zero => intro st h; exact h
  | succ fuel ih =>
    intro st h
    simp only [extBack]
    split
    · rename_i hcond
      apply ih
      rcases h with h1 | h1
      · exfalso
        rw [h1] at hcond
        exact absurd hcond.1 (by simp)
      · right
        refine ⟨?_, ?_, ?_⟩ <;> dsimp only <;> omega
    · exact h

/-- The forward widening loops preserve the best-block invariant. -/
theorem extFwd_inv {α : Type} [DecidableEq α] [Inhabited α] (wantJunk : Bool)
    (isjunk : α → Bool) (a b : List α) (alo blo ahi bhi : Nat) :
    ∀ (fuel : Nat) (st : Nat × Nat × Nat), PbInv alo blo ahi bhi st →
      PbInv alo blo ahi bhi (extFwd wantJunk isjunk a b ahi bhi fuel st) := by
  intro fuel
  induction fuel with
  | zero => intro st h; exact h
  | succ fuel ih =>
    intro st h
    simp only [extFwd]
    split
    · rename_i hcond
      apply ih
      rcases h with h1 | h1
      · rw [h1]
        rw [h1] at hcond
        right
        dsimp only
        dsimp only at hcond
        omega
      · right
        refine ⟨?_, ?_, ?_⟩ <;> dsimp only <;> omega
    · exact h

/-- `find_longest_match` returns a block contained in the requested
rectangle (trivially so when empty). -/
theorem findLongestMatch_inv {α : Type} [DecidableEq α] [Inhabited α]
    (isjunk : α → Bool) (a b : List α) (b2j : α → List Nat)
    (alo ahi blo bhi : Nat) :
    PbInv alo blo ahi bhi (findLongestMatch isjunk a b b2j alo ahi blo bhi) := by
  unfold findLongestMatch
  apply extFwd_inv
  apply extBack_inv
  apply extFwd_inv
  apply extBack_inv
  by_cases halo : alo ≤ ahi
  · exact flmOuter_inv a b2j alo blo ahi bhi (ahi - alo) alo _ _ (by omega)
      (by omega) (fun _ => Or.inl rfl) (Or.inl rfl)
  · have hm : ahi - alo = 0 := by omega
    rw [hm]
    simp [flmOuter, PbInv]

/-- Membership is preserved by sorted insertion. -/
theorem mem_insertSorted {α : Type} (le : α → α → Bool) (x y : α) :
    ∀ l, y ∈ insertSorted le x l ↔ y = x ∨ y ∈ l := by
  intro l
  induction l with
  | nil => simp [insertSorted]
  | cons z zs ih =>
    simp only [insertSorted]
    split
    · simp
    · simp only [List.mem_cons, ih]
      tauto

/-- Membership is preserved by the insertion sort. -/
theorem mem_sortLe {α : Type} (le : α → α → Bool) (y : α) :
    ∀ l, y ∈ sortLe le l ↔ y ∈ l := by
  intro l
  induction l with
  | nil => simp [sortLe]
  | cons z zs ih =>
    simp only [sortLe, mem_insertSorted, ih, List.mem_cons]

/-- Every block collected by the matching-block queue ends within the
`a.length × b.length` rectangle. -/
theorem mbQueue_bound {α : Type} [DecidableEq α] [Inhabited α] (isjunk : α → Bool)
    (a b : List α) (b2j : α → List Nat) (la lb : Nat) :
    ∀ (fuel : Nat) (queue : List (Nat × Nat × Nat × Nat))
      (acc : List (Nat × Nat × Nat)),
      (∀ q, q ∈ queue → q.2.1 ≤ la ∧ q.2.2.2 ≤ lb) →
      (∀ m, m ∈ acc → m.1 + m.2.2 ≤ la ∧ m.2.1 + m.2.2 ≤ lb) →
      ∀ m, m ∈ mbQueue isjunk a b b2j fuel queue acc →
        m.1 + m.2.2 ≤ la ∧ m.2.1 + m.2.2 ≤ lb := by
  intro fuel
  induction fuel with
  | zero =>
    intro queue acc _ hacc m hm
    exact hacc m hm
  | succ fuel ih =>
    intro queue acc hq hacc m hm
    match queue with
    | [] => exact hacc m hm
    | (alo, ahi, blo, bhi) :: rest =>
      have hrect : ahi ≤ la ∧ bhi ≤ lb := hq (alo, ahi, blo, bhi) (by simp)
      have hrest : ∀ q, q ∈ rest → q.2.1 ≤ la ∧ q.2.2.2 ≤ lb :=
        fun q hqr => hq q (by simp [hqr])
      have hflm := findLongestMatch_inv isjunk a b b2j alo ahi blo bhi
      simp only [mbQueue] at hm
      split at hm
      · rename_i hk0
        have hbound : (findLongestMatch isjunk a b b2j alo ahi blo bhi).1 +
            (findLongestMatch isjunk a b b2j alo ahi blo bhi).2.2 ≤ ahi ∧
            (findLongestMatch isjunk a b b2j alo ahi blo bhi).2.1 +
            (findLongestMatch isjunk a b b2j alo ahi blo bhi).2.2 ≤ bhi := by
          rcases hflm with h1 | h1
          · rw [h1] at hk0
            exact absurd rfl hk0
          · exact ⟨h1.2.1, h1.2.2⟩
        refine ih _ _ ?_ ?_ m hm
        · intro q hqmem
          split at hqmem
          · rcases List.mem_cons.mp hqmem with h2 | h2
            · subst h2
              exact ⟨hrect.1, hrect.2⟩
            · split at h2
              · rcases List.mem_cons.mp h2 with h3 | h3
                · subst h3
                  refine ⟨?_, ?_⟩ <;> dsimp only <;> omega
                · exact hrest q h3
              · exact hrest q h2
          · split at hqmem
            · rcases List.mem_cons.mp hqmem with h3 | h3
              · subst h3
                refine ⟨?_, ?_⟩ <;> dsimp only <;> omega
              · exact hrest q h3
            · exact hrest q hqmem
        · intro m2 hm2
          rcases List.mem_append.mp hm2 with h2 | h2
          · exact hacc m2 h2
          · rw [List.mem_singleton.mp h2]
            omega
      · exact ih _ _ hrest hacc m hm

/-- The adjacent-block merging pass keeps blocks within the rectangle. -/
theorem collapseGo_bound (la lb : Nat) :
    ∀ (blocks : List (Nat × Nat × Nat)) (cur : Nat × Nat × Nat),
      cur.1 + cur.2.2 ≤ la ∧ cur.2.1 + cur.2.2 ≤ lb →
      (∀ m, m ∈ blocks → m.1 + m.2.2 ≤ la ∧ m.2.1 + m.2.2 ≤ lb) →
      ∀ m, m ∈ collapseGo cur blocks →
        m.1 + m.2.2 ≤ la ∧ m.2.1 + m.2.2 ≤ lb := by
  intro blocks
  induction blocks with
  | nil =>
    intro cur hcur _ m hm
    match cur with
    | (i1, j1, k1) =>
      simp only [collapseGo] at hm
      split at hm
      · rw [List.mem_singleton.mp hm]
        exact hcur
      · simp at hm
  | cons bl rest ih =>
    intro cur hcur hblocks m hm
    match cur, bl with
    | (i1, j1, k1), (i2, j2, k2) =>
      have hbl : i2 + k2 ≤ la ∧ j2 + k2 ≤ lb := hblocks (i2, j2, k2) (by simp)
      have hrest : ∀ m, m ∈ rest → m.1 + m.2.2 ≤ la ∧ m.2.1 + m.2.2 ≤ lb :=
        fun m hmr => hblocks m (by simp [hmr])
      simp only [collapseGo] at hm
      split at hm
      · rename_i hadj
        refine ih (i1, j1, k1 + k2) ⟨?_, ?_⟩ hrest m hm <;>
          dsimp only at hcur hbl ⊢ <;> omega
      · rcases List.mem_append.mp hm with h2 | h2
        · split at h2
          · rw [List.mem_singleton.mp h2]
            exact hcur
          · simp at h2
        · exact ih (i2, j2, k2) hbl hrest m h2

/-- All matching blocks, the terminator included, end within the rectangle. -/
theorem getMatchingBlocks_bound {α : Type} [DecidableEq α] [Inhabited α]
    (isjunk : α → Bool) (autojunk : Bool) (a b : List α) :
    ∀ m, m ∈ getMatchingBlocks isjunk autojunk a b →
      m.1 + m.2.2 ≤ a.length ∧ m.2.1 + m.2.2 ≤ b.length := by
  intro m hm
  unfold getMatchingBlocks at hm
  rcases List.mem_append.mp hm with h1 | h1
  · refine collapseGo_bound a.length b.length _ (0, 0, 0) ⟨by simp, by simp⟩
      ?_ m h1
    intro m2 hm2
    rw [mem_sortLe] at hm2
    exact mbQueue_bound isjunk a b _ a.length b.length _ _ []
      (fun q hq => by
        rw [List.mem_singleton.mp hq]
        exact ⟨le_refl _, le_refl _⟩)
      (fun m3 hm3 => by simp at hm3) m2 hm2
  · rw [List.mem_singleton.mp h1]
    exact ⟨by simp, by simp⟩

/-- Opcode ranges stay within the rectangle. -/
theorem opcodesGo_bound (la lb : Nat) :
    ∀ (blocks : List (Nat × Nat × Nat)) (i j : Nat),
      (∀ m, m ∈ blocks → m.1 + m.2.2 ≤ la ∧ m.2.1 + m.2.2 ≤ lb) →
      ∀ op, op ∈ opcodesGo i j blocks → op.2.2.1 ≤ la ∧ op.2.2.2.2 ≤ lb := by
  intro blocks
  induction blocks with
  | nil => intro i j _ op hop; simp [opcodesGo] at hop
  | cons bl rest ih =>
    intro i j hblocks op hop
    match bl with
    | (ai, bj, size) =>
      have hbl : ai + size ≤ la ∧ bj + size ≤ lb := hblocks (ai, bj, size) (by simp)
      have hrest : ∀ m, m ∈ rest → m.1 + m.2.2 ≤ la ∧ m.2.1 + m.2.2 ≤ lb :=
        fun m hmr => hblocks m (by simp [hmr])
      simp only [opcodesGo] at hop
      rcases List.mem_append.mp hop with h1 | h1
      · rcases List.mem_append.mp h1 with h2 | h2
        · split at h2
          · rw [List.mem_singleton.mp h2]
            exact ⟨by dsimp only; omega, by dsimp only; omega⟩
          · split at h2
            · rw [List.mem_singleton.mp h2]
              exact ⟨by dsimp only; omega, by dsimp only; omega⟩
            · split at h2
              · rw [List.mem_singleton.mp h2]
                exact ⟨by dsimp only; omega, by dsimp only; omega⟩
              · simp at h2
        · split at h2
          · rw [List.mem_singleton.mp h2]
            exact ⟨by dsimp only; omega, by dsimp only; omega⟩
          · simp at h2
      · exact ih (ai + size) (bj + size) hrest op h1

/-- All opcode ranges of `get_opcodes` stay within the two lengths. -/
theorem getOpcodes_bound {α : Type} [DecidableEq α] [Inhabited α]
    (isjunk : α → Bool) (autojunk : Bool) (a b : List α) :
    ∀ op, op ∈ getOpcodes isjunk autojunk a b →
      op.2.2.1 ≤ a.length ∧ op.2.2.2.2 ≤ b.length := by
  intro op hop
  exact opcodesGo_bound a.length b.length _ 0 0
    (getMatchingBlocks_bound isjunk autojunk a b) op hop


/-- The rectangle-bound property of a scan state. -/
def ScanInv (ahi bhi : Nat) (st : ScanState) : Prop :=
  (∀ r i j, st.1 = some (r, i, j) → i < ahi ∧ j < bhi) ∧
  (∀ i j, st.2 = some (i, j) → i < ahi ∧ j < bhi)

/-- One scan step preserves the rectangle bound when the compared indices are
in range. -/
theorem fancyStep_inv (a b : List String) (ahi bhi j i : Nat) (hib : i < ahi)
    (hjb : j < bhi) (st : ScanState) (h : ScanInv ahi bhi st) :
    ScanInv ahi bhi (fancyStep a b j i st) := by
  unfold fancyStep
  dsimp only
  split
  · refine ⟨h.1, ?_⟩
    intro i2 j2 h2
    dsimp only at h2
    split at h2
    · rw [Option.some.injEq, Prod.mk.injEq] at h2
      rw [← h2.1, ← h2.2]
      exact ⟨hib, hjb⟩
    · exact h.2 i2 j2 h2
  · split
    · refine ⟨?_, h.2⟩
      intro r i2 j2 h2
      dsimp only at h2
      rw [Option.some.injEq] at h2
      have h3 : i2 = i := by
        have := congrArg (fun p => p.2.1) h2
        simpa using this.symm
      have h4 : j2 = j := by
        have := congrArg (fun p => p.2.2) h2
        simpa using this.symm
      rw [h3, h4]
      exact ⟨hib, hjb⟩
    · exact h

/-- The inner scan loop preserves the rectangle bound. -/
theorem fancyScanInner_inv (a b : List String) (ahi bhi j : Nat) (hjb : j < bhi) :
    ∀ (is : List Nat) (st : ScanState), (∀ i, i ∈ is → i < ahi) →
      ScanInv ahi bhi st → ScanInv ahi bhi (fancyScanInner a b j is st) := by
  intro is
  induction is with
  | nil => intro st _ h; exact h
  | cons i is ih =>
    intro st his h
    exact ih _ (fun i2 hi2 => his i2 (by simp [hi2]))
      (fancyStep_inv a b ahi bhi j i (his i (by simp)) hjb st h)

/-- The whole `_fancy_replace` scan yields positions inside the rectangle. -/
theorem fancyScan_bounds (a : List String) (alo ahi : Nat) (b : List String)
    (blo bhi : Nat) : ScanInv ahi bhi (fancyScan a alo ahi b blo bhi) := by
  unfold fancyScan
  have main : ∀ (js : List Nat) (st : ScanState), (∀ j, j ∈ js → j < bhi) →
      ScanInv ahi bhi st → ScanInv ahi bhi (fancyScanOuter a b alo ahi js st) := by
    intro js
    induction js with
    | nil => intro st _ h; exact h
    | cons j js ih =>
      intro st hjs h
      refine ih _ (fun j2 hj2 => hjs j2 (by simp [hj2])) ?_
      refine fancyScanInner_inv a b ahi bhi j (hjs j (by simp)) _ st ?_ h
      intro i hi
      rw [List.mem_range'] at hi
      omega
  refine main _ _ ?_ ?_
  · intro j hj
    rw [List.mem_range'] at hj
    omega
  · exact ⟨fun r i j h => by simp at h, fun i j h => by simp at h⟩

/-- Every line `_fancy_replace` emits (with any fuel) is one of the four
entry forms, provided the ranges lie within the two sequences. -/
theorem fancyReplace_forms :
    ∀ (fuel : Nat) (a : List String) (alo ahi : Nat) (b : List String)
      (blo bhi : Nat), ahi ≤ a.length → bhi ≤ b.length →
      ∀ l, l ∈ fancyReplace fuel a alo ahi b blo bhi → EntryForms a b l := by
  intro fuel
  induction fuel with
  | zero =>
    intro a alo ahi b blo bhi _ _ l hl
    simp [fancyReplace] at hl
  | succ fuel ih =>
    intro a alo ahi b blo bhi ha hb l hl
    have hhelp : ∀ alo2 ahi2 blo2 bhi2, ahi2 ≤ a.length → bhi2 ≤ b.length →
        ∀ l2, l2 ∈ fancyHelperG (fancyReplace fuel) a alo2 ahi2 b blo2 bhi2 →
          EntryForms a b l2 := by
      intro alo2 ahi2 blo2 bhi2 ha2 hb2 l2 hl2
      unfold fancyHelperG at hl2
      split at hl2
      · split at hl2
        · exact ih a alo2 ahi2 b blo2 bhi2 ha2 hb2 l2 hl2
        · obtain ⟨t, ht, rfl⟩ := dumpD_mem _ _ _ _ _ hl2
          exact Or.inr (Or.inl ⟨t, ht, rfl⟩)
      · split at hl2
        · obtain ⟨t, ht, rfl⟩ := dumpD_mem _ _ _ _ _ hl2
          exact Or.inr (Or.inr (Or.inl ⟨t, ht, rfl⟩))
        · simp at hl2
    have hscan := fancyScan_bounds a alo ahi b blo bhi
    simp only [fancyReplace] at hl
    split at hl
    · split at hl
      · exact plainReplace_forms _ _ _ _ _ _ _ hl
      · rename_i e heq
        obtain ⟨ei, ej⟩ := e
        have hbounds : ei < ahi ∧ ej < bhi := hscan.2 ei ej heq
        rcases List.mem_append.mp hl with h1 | h1
        · rcases List.mem_append.mp h1 with h2 | h2
          · exact hhelp alo ei blo ej (by omega) (by omega) l h2
          · rw [List.mem_singleton.mp h2]
            exact Or.inl ⟨a.getD ei "",
              getD_mem_of_lt a ei "" (by omega), rfl⟩
        · exact hhelp (ei + 1) ahi (ej + 1) bhi ha hb l h1
    · split at hl
      · rename_i t heq
        obtain ⟨r, ti, tj⟩ := t
        have hbounds : ti < ahi ∧ tj < bhi := hscan.1 r ti tj heq
        rcases List.mem_append.mp hl with h1 | h1
        · rcases List.mem_append.mp h1 with h2 | h2
          · exact hhelp alo ti blo tj (by omega) (by omega) l h2
          · exact qformat_forms a b _ _
              (getD_mem_of_lt a ti "" (by omega))
              (getD_mem_of_lt b tj "" (by omega)) l h2
        · exact hhelp (ti + 1) ahi (tj + 1) bhi ha hb l h1
      · simp at hl

/-- C3 (amended): every entry `difflib.ndiff` produces for a pair of token
sequences is exactly one of Unchanged(token of A), Removed(token of A),
Added(token of B), or an intraline `? ` guide line; the guide lines carry no
input token (and, as the counterexample shows, their tails also surface in
the rendered per-sentence diff). -/
theorem c3_entry_classification (a b : List String) :
    ∀ l, l ∈ ndiffS a b → EntryForms a b l := by
  intro l hl
  unfold ndiffS differCompare at hl
  rw [List.mem_flatMap] at hl
  obtain ⟨op, hop, hlop⟩ := hl
  have hbound := getOpcodes_bound (fun _ => false) true a b op hop
  obtain ⟨tag, i1, i2, j1, j2⟩ := op
  dsimp only at hbound
  cases tag with
  | replace =>
    exact fancyReplace_forms _ a i1 i2 b j1 j2 hbound.1 hbound.2 l hlop
  | delete =>
    obtain ⟨t, ht, rfl⟩ := dumpD_mem _ _ _ _ _ hlop
    exact Or.inr (Or.inl ⟨t, ht, rfl⟩)
  | insert =>
    obtain ⟨t, ht, rfl⟩ := dumpD_mem _ _ _ _ _ hlop
    exact Or.inr (Or.inr (Or.inl ⟨t, ht, rfl⟩))
  | equal =>
    obtain ⟨t, ht, rfl⟩ := dumpD_mem _ _ _ _ _ hlop
    exact Or.inl ⟨t, ht, rfl⟩

/-- C3 witness: the classification applied to the one-line diff of `["x"]`
against itself. -/
theorem c3_amended_witness : EntryForms ["x"] ["x"] ("  x") :=
  c3_entry_classification ["x"] ["x"] ("  x") (by decide)

/-! ## The self-diff (infrastructure for C6)

For the word-level matcher on `(X, X)` we show `find_longest_match` over the
full rectangle returns `(0, 0, |X|)`: the chain phase always keeps a best
block on the diagonal — the autojunk filter can break diagonal chains, but an
off-diagonal chain of length `k` forces a diagonal chain of length `k` that
is found no later — and the widening loops then extend a diagonal block to
the whole diagonal. -/

/-- The `b2j` mapping of the word-level matcher on second sequence `X`. -/
def selfB2j (X : List String) : String → List Nat :=
  b2jOf (fun _ => false) true X

/-- Position `i` survives the autojunk filter (its own value has a `b2j`
entry). -/
def selfP (X : List String) (i : Nat) : Prop :=
  i ∈ selfB2j X (X.getD i "")

/-- Length of the run of surviving positions ending just below `m`. -/
def selfDrun (X : List String) : Nat → Nat
  | 0 => 0
  | m + 1 => if m ∈ selfB2j X (X.getD m "") then selfDrun X m + 1 else 0

/-- Maximum of `selfDrun` over `1..m`. -/
def selfMaxD (X : List String) : Nat → Nat
  | 0 => 0
  | m + 1 => max (selfMaxD X m) (selfDrun X (m + 1))

/-- Members of any `b2j` entry are in-range positions holding the value. -/
theorem selfB2j_mem (X : List String) (v : String) (j : Nat)
    (h : j ∈ selfB2j X v) : j < X.length ∧ X.get? j = some v := by
  unfold selfB2j b2jOf at h
  split at h
  · simp at h
  · have h2 := List.mem_filter.mp h
    refine ⟨by simpa using List.mem_range.mp h2.1, by simpa using h2.2⟩

/-- A member of the entry for `X.getD i ""` is itself a surviving position. -/
theorem selfP_of_mem (X : List String) (i j : Nat)
    (h : j ∈ selfB2j X (X.getD i "")) : selfP X j := by
  have h2 := selfB2j_mem X _ j h
  have hval : X.getD j "" = X.getD i "" := by
    have := h2.2
    rw [List.getD_eq_getD_get?, this]
    rfl
  unfold selfP
  rw [hval]
  exact h

/-- A surviving in-range position is a member of its own entry. -/
theorem selfP_self_mem (X : List String) (s : Nat) (hs : s < X.length)
    (h : ¬ selfP X s) : selfB2j X (X.getD s "") = [] := by
  unfold selfP at h
  unfold selfB2j b2jOf at h ⊢
  split at h
  · rename_i hc
    rw [if_pos hc]
  · exfalso
    apply h
    apply List.mem_filter.mpr
    constructor
    · simpa using List.mem_range.mpr hs
    · have : X.get? s = some (X.getD s "") := by
        rw [List.getD_eq_getD_get?]
        cases h2 : X.get? s with
        | none =>
          rw [List.get?_eq_none] at h2
          omega
        | some v => rfl
      simpa using this

/-- `selfDrun` grows by at most one per step. -/
theorem selfDrun_le (X : List String) : ∀ m, selfDrun X m ≤ m := by
  intro m
  induction m with
  | zero => simp [selfDrun]
  | succ m ih =>
    unfold selfDrun
    split <;> omega

/-- `selfDrun k` is bounded by `selfMaxD m` for `k ≤ m`. -/
theorem selfDrun_le_selfMaxD (X : List String) : ∀ m k, k ≤ m →
    selfDrun X k ≤ selfMaxD X m := by
  intro m
  induction m with
  | zero =>
    intro k hk
    have : k = 0 := by omega
    simp [this, selfDrun, selfMaxD]
  | succ m ih =>
    intro k hk
    by_cases h : k = m + 1
    · subst h
      unfold selfMaxD
      omega
    · have := ih k (by omega)
      unfold selfMaxD
      omega

/-- The best-block update step of the inner chain loop, as a function of the
previous dictionary only. -/
def bestStep (j2lenOld : Nat → Nat) (i : Nat) (b : Nat × Nat × Nat) (j : Nat) :
    Nat × Nat × Nat :=
  let k := (if j = 0 then 0 else j2lenOld (j - 1)) + 1
  if b.2.2 < k then (i + 1 - k, j + 1 - k, k) else b

/-- The dictionary after the inner loop: written keys hold their chain value,
other keys keep the accumulator value. -/
theorem flmInner_acc_char (j2lenOld : Nat → Nat) (i : Nat) :
    ∀ (js : List Nat) (acc : Nat → Nat) (best : Nat × Nat × Nat) (j0 : Nat),
      (flmInner j2lenOld i js acc best).1 j0 =
        if j0 ∈ js then (if j0 = 0 then 0 else j2lenOld (j0 - 1)) + 1
        else acc j0 := by
  intro js
  induction js with
  | nil =>
    intro acc best j0
    simp [flmInner]
  | cons j js ih =>
    intro acc best j0
    simp only [flmInner]
    rw [ih]
    by_cases h1 : j0 ∈ js
    · simp [h1]
    · by_cases h2 : j0 = j
      · subst h2
        simp [h1]
      · simp [h1, h2]

/-- The best block after the inner loop is a fold of `bestStep` (independent
of the accumulator writes). -/
theorem flmInner_best_char (j2lenOld : Nat → Nat) (i : Nat) :
    ∀ (js : List Nat) (acc : Nat → Nat) (best : Nat × Nat × Nat),
      (flmInner j2lenOld i js acc best).2 =
        js.foldl (bestStep j2lenOld i) best := by
  intro js
  induction js with
  | nil =>
    intro acc best
    simp [flmInner]
  | cons j js ih =>
    intro acc best
    simp only [flmInner, List.foldl_cons, bestStep]
    rw [ih]

/-- A `bestStep` fold over positions whose chain values never beat the
current best leaves the best unchanged. -/
theorem foldl_bestStep_fixed (j2lenOld : Nat → Nat) (i : Nat) :
    ∀ (js : List Nat) (best : Nat × Nat × Nat),
      (∀ j, j ∈ js → (if j = 0 then 0 else j2lenOld (j - 1)) + 1 ≤ best.2.2) →
      js.foldl (bestStep j2lenOld i) best = best := by
  intro js
  induction js with
  | nil => intro best _; rfl
  | cons j js ih =>
    intro best hjs
    simp only [List.foldl_cons, bestStep]
    rw [if_neg (by have := hjs j (by simp); omega)]
    exact ih best (fun j2 hj2 => hjs j2 (by simp [hj2]))

/-- Split of a `b2j` entry around the diagonal position `s`. -/
theorem selfB2j_split (X : List String) (s : Nat) (hs : s < X.length)
    (hp : selfP X s) :
    ∃ A B, selfB2j X (X.getD s "") = A ++ s :: B ∧
      (∀ j, j ∈ A → j < s) ∧ (∀ j, j ∈ B → s < j) := by
  have hne : selfB2j X (X.getD s "") = b2jRaw X (X.getD s "") := by
    unfold selfP at hp
    unfold selfB2j b2jOf at hp ⊢
    split at hp
    · simp at hp
    · rename_i hc
      rw [if_neg hc]
  rw [hne]
  unfold b2jRaw
  have hq : X.get? s = some (X.getD s "") := by
    rw [List.getD_eq_getD_get?]
    cases h2 : X.get? s with
    | none =>
      rw [List.get?_eq_none] at h2
      omega
    | some v => rfl
  have hrange : List.range X.length =
      List.range' 0 s ++ s :: List.range' (s + 1) (X.length - s - 1) := by
    rw [List.range_eq_range']
    have h1 : X.length = (X.length - s) + s := by omega
    rw [h1, ← List.range'_append_1 0 s (X.length - s)]
    have h2 : X.length - s = (X.length - s - 1) + 1 := by omega
    rw [h2, List.range'_succ]
    simp
  refine ⟨(List.range' 0 s).filter (fun j => X.get? j = some (X.getD s "")),
    (List.range' (s + 1) (X.length - s - 1)).filter
      (fun j => X.get? j = some (X.getD s "")), ?_, ?_, ?_⟩
  · rw [hrange, List.filter_append, List.filter_cons]
    rw [if_pos (decide_eq_true hq)]
  · intro j hj
    have := List.mem_filter.mp hj
    have h2 := List.mem_range'.mp this.1
    omega
  · intro j hj
    have := List.mem_filter.mp hj
    have h2 := List.mem_range'.mp this.1
    omega

/-- `takeWhile` keeps a list all of whose elements satisfy the predicate. -/
theorem takeWhile_all {α : Type} (p : α → Bool) :
    ∀ (l : List α), (∀ x, x ∈ l → p x = true) → l.takeWhile p = l := by
  intro l
  induction l with
  | nil => intro _; rfl
  | cons x xs ih =>
    intro h
    rw [List.takeWhile_cons, if_pos (h x (by simp))]
    rw [ih (fun y hy => h y (by simp [hy]))]

/-- On the full rectangle the `continue`/`break` filters keep the whole
`b2j` entry. -/
theorem selfJs_eq (X : List String) (v : String) :
    ((selfB2j X v).takeWhile (fun j => j < X.length)).filter (fun j => 0 ≤ j) =
      selfB2j X v := by
  have h1 : (selfB2j X v).takeWhile (fun j => j < X.length) = selfB2j X v := by
    apply takeWhile_all
    intro j hj
    exact decide_eq_true (selfB2j_mem X v j hj).1
  rw [h1]
  apply List.filter_eq_self.mpr
  intro j _
  simp

/-- Definitional unfolding of `selfDrun` at a successor. -/
theorem selfDrun_succ (X : List String) (m : Nat) :
    selfDrun X (m + 1) =
      if m ∈ selfB2j X (X.getD m "") then selfDrun X m + 1 else 0 := rfl

/-- Definitional unfolding of `selfMaxD` at a successor. -/
theorem selfMaxD_succ (X : List String) (m : Nat) :
    selfMaxD X (m + 1) = max (selfMaxD X m) (selfDrun X (m + 1)) := rfl

/-- Invariant of the chain phase on the self-diff after `m` outer steps: the
best block is diagonal and in range, it dominates every run seen so far, the
dictionary values are bounded by the current run and their own position's
run, and the diagonal entry is exact. -/
def SelfInv (X : List String) (m : Nat) (j2len : Nat → Nat)
    (best : Nat × Nat × Nat) : Prop :=
  best.1 = best.2.1 ∧ best.1 + best.2.2 ≤ X.length ∧
  selfMaxD X m ≤ best.2.2 ∧
  (∀ j, j2len j ≤ min (selfDrun X m) (selfDrun X (j + 1))) ∧
  (0 < selfDrun X m → selfDrun X m ≤ j2len (m - 1))


/-- Case analysis of one `bestStep`. -/
theorem bestStep_cases (j2lenOld : Nat → Nat) (i : Nat) (b : Nat × Nat × Nat)
    (j : Nat) :
    ((if j = 0 then 0 else j2lenOld (j - 1)) + 1 ≤ b.2.2 ∧
      bestStep j2lenOld i b j = b) ∨
    (b.2.2 < (if j = 0 then 0 else j2lenOld (j - 1)) + 1 ∧
      bestStep j2lenOld i b j =
        (i + 1 - ((if j = 0 then 0 else j2lenOld (j - 1)) + 1),
         j + 1 - ((if j = 0 then 0 else j2lenOld (j - 1)) + 1),
         (if j = 0 then 0 else j2lenOld (j - 1)) + 1)) := by
  by_cases h : b.2.2 < (if j = 0 then 0 else j2lenOld (j - 1)) + 1
  · right
    refine ⟨h, ?_⟩
    simp only [bestStep]
    rw [if_pos h]
  · left
    refine ⟨by omega, ?_⟩
    simp only [bestStep]
    rw [if_neg h]

/-- One outer chain step preserves the self-diff invariant. -/
theorem selfStep (X : List String) (s : Nat) (hs : s < X.length)
    (j2len : Nat → Nat) (best : Nat × Nat × Nat)
    (hinv : SelfInv X s j2len best) :
    SelfInv X (s + 1)
      (flmInner j2len s (((selfB2j X (X.getD s "")).takeWhile
        (fun j => j < X.length)).filter (fun j => 0 ≤ j)) (fun _ => 0) best).1
      (flmInner j2len s (((selfB2j X (X.getD s "")).takeWhile
        (fun j => j < X.length)).filter (fun j => 0 ≤ j)) (fun _ => 0) best).2 := by
  obtain ⟨hdiag, hrange, hmax, hval, hexact⟩ := hinv
  rw [selfJs_eq]
  by_cases hp : selfP X s
  · -- the diagonal position survives: js is the full entry, containing s
    have hdrun : selfDrun X (s + 1) = selfDrun X s + 1 := by
      unfold selfP at hp
      rw [selfDrun_succ, if_pos hp]
    -- chain-value bounds for every scanned position
    have hkf : ∀ j, j ∈ selfB2j X (X.getD s "") →
        ((if j = 0 then 0 else j2len (j - 1)) + 1) ≤ selfDrun X (j + 1) ∧
        ((if j = 0 then 0 else j2len (j - 1)) + 1) ≤ selfDrun X (s + 1) := by
      intro j hj
      have hpj : selfP X j := selfP_of_mem X s j hj
      have hdj : selfDrun X (j + 1) = selfDrun X j + 1 := by
        unfold selfP at hpj
        rw [selfDrun_succ, if_pos hpj]
      by_cases hj0 : j = 0
      · subst hj0
        rw [if_pos rfl, hdj, hdrun]
        have : selfDrun X 0 = 0 := rfl
        omega
      · rw [if_neg hj0]
        have h1 := hval (j - 1)
        have h2 : j - 1 + 1 = j := by omega
        rw [h2] at h1
        rw [hdj, hdrun]
        omega
    -- the diagonal chain value is exactly the incremented run length
    have hks : (if s = 0 then 0 else j2len (s - 1)) + 1 = selfDrun X (s + 1) := by
      have hupper := (hkf s hp).2
      rw [hdrun] at hupper ⊢
      by_cases hs0 : s = 0
      · subst hs0
        rw [if_pos rfl]
        rw [if_pos rfl] at hupper
        have : selfDrun X 0 = 0 := rfl
        omega
      · rw [if_neg hs0]
        rw [if_neg hs0] at hupper
        by_cases hd0 : 0 < selfDrun X s
        · have := hexact hd0
          omega
        · have h1 := hval (s - 1)
          have h2 : s - 1 + 1 = s := by omega
          rw [h2] at h1
          omega
    obtain ⟨A, B, hsplit, hA, hB⟩ := selfB2j_split X s hs hp
    -- the best block after this step is `bestStep` applied at the diagonal
    have hbest :
        (flmInner j2len s (selfB2j X (X.getD s "")) (fun _ => 0) best).2 =
          bestStep j2len s best s := by
      rw [flmInner_best_char, hsplit, List.foldl_append, List.foldl_cons]
      rw [foldl_bestStep_fixed j2len s A best ?hA]
      case hA =>
        intro j hj
        have hmem : j ∈ selfB2j X (X.getD s "") := by
          rw [hsplit]
          exact List.mem_append.mpr (Or.inl hj)
        have h1 := (hkf j hmem).1
        have h2 : selfDrun X (j + 1) ≤ selfMaxD X s :=
          selfDrun_le_selfMaxD X s (j + 1) (by have := hA j hj; omega)
        omega
      apply foldl_bestStep_fixed
      intro j hj
      have hmem : j ∈ selfB2j X (X.getD s "") := by
        rw [hsplit]
        exact List.mem_append.mpr (Or.inr (by simp [hj]))
      have h1 := (hkf j hmem).2
      rcases bestStep_cases j2len s best s with ⟨hle, heq⟩ | ⟨hlt, heq⟩ <;>
        rw [heq] <;> [skip; dsimp only] <;> omega
    have hacc := flmInner_acc_char j2len s (selfB2j X (X.getD s ""))
      (fun _ => 0) best
    have hdle : selfDrun X (s + 1) ≤ s + 1 := selfDrun_le X (s + 1)
    have hpm : s ∈ selfB2j X (X.getD s "") := hp
    refine ⟨?_, ?_, ?_, ?_, ?_⟩
    · rw [hbest]
      rcases bestStep_cases j2len s best s with ⟨hle, heq⟩ | ⟨hlt, heq⟩
      · rw [heq]
        exact hdiag
      · rw [heq]
    · rw [hbest]
      rcases bestStep_cases j2len s best s with ⟨hle, heq⟩ | ⟨hlt, heq⟩
      · rw [heq]
        exact hrange
      · rw [heq]
        dsimp only
        rw [hks]
        omega
    · rw [hbest, selfMaxD_succ]
      rcases bestStep_cases j2len s best s with ⟨hle, heq⟩ | ⟨hlt, heq⟩
      · rw [heq]
        rw [hks] at hle
        omega
      · rw [heq]
        dsimp only
        rw [hks]
        rw [hks] at hlt
        omega
    · intro j
      rw [hacc j]
      by_cases hj : j ∈ selfB2j X (X.getD s "")
      · rw [if_pos hj]
        have := hkf j hj
        omega
      · rw [if_neg hj]
        simp
    · intro hpos
      have h1 : s + 1 - 1 = s := by omega
      rw [h1, hacc s, if_pos hpm, hks]
  · -- the diagonal position was filtered out: nothing happens this step
    rw [selfP_self_mem X s hs hp]
    have hdrun : selfDrun X (s + 1) = 0 := by
      unfold selfP at hp
      rw [selfDrun_succ, if_neg hp]
    simp only [flmInner]
    refine ⟨hdiag, hrange, ?_, ?_, ?_⟩
    · rw [selfMaxD_succ, hdrun]
      omega
    · intro j
      simp
    · rw [hdrun]
      omega

/-- The chain phase over `range' s k` ending at `X.length` preserves the
self-diff invariant to the end. -/
theorem selfChain (X : List String) :
    ∀ (k s : Nat) (j2len : Nat → Nat) (best : Nat × Nat × Nat),
      s + k = X.length → SelfInv X s j2len best →
      SelfInv X X.length
        (flmOuter X (selfB2j X) 0 X.length (List.range' s k) j2len best).1
        (flmOuter X (selfB2j X) 0 X.length (List.range' s k) j2len best).2 := by
  intro k
  induction k with
  | zero =>
    intro s j2len best hk hinv
    have hsn : s = X.length := by omega
    subst hsn
    simpa [flmOuter] using hinv
  | succ k ih =>
    intro s j2len best hk hinv
    rw [List.range'_succ]
    simp only [flmOuter]
    exact ih (s + 1) _ _ (by omega) (selfStep X s (by omega) j2len best hinv)

/-- Definitional unfolding of `extBack` at positive fuel. -/
theorem extBack_succ {α : Type} [DecidableEq α] [Inhabited α] (wantJunk : Bool)
    (isjunk : α → Bool) (a b : List α) (alo blo fuel : Nat)
    (st : Nat × Nat × Nat) :
    extBack wantJunk isjunk a b alo blo (fuel + 1) st =
      if alo < st.1 ∧ blo < st.2.1 ∧
          isjunk (b.getD (st.2.1 - 1) default) = wantJunk ∧
          a.getD (st.1 - 1) default = b.getD (st.2.1 - 1) default then
        extBack wantJunk isjunk a b alo blo fuel (st.1 - 1, st.2.1 - 1, st.2.2 + 1)
      else st := rfl

/-- Definitional unfolding of `extFwd` at positive fuel. -/
theorem extFwd_succ {α : Type} [DecidableEq α] [Inhabited α] (wantJunk : Bool)
    (isjunk : α → Bool) (a b : List α) (ahi bhi fuel : Nat)
    (st : Nat × Nat × Nat) :
    extFwd wantJunk isjunk a b ahi bhi (fuel + 1) st =
      if st.1 + st.2.2 < ahi ∧ st.2.1 + st.2.2 < bhi ∧
          isjunk (b.getD (st.2.1 + st.2.2) default) = wantJunk ∧
          a.getD (st.1 + st.2.2) default = b.getD (st.2.1 + st.2.2) default then
        extFwd wantJunk isjunk a b ahi bhi fuel (st.1, st.2.1, st.2.2 + 1)
      else st := rfl

/-- The non-junk backward widening slides a diagonal block of the self-diff
to the origin. -/
theorem selfBack (X : List String) :
    ∀ (t s : Nat), extBack false (fun _ => false) X X 0 0 (t + 1) (t, t, s) =
      (0, 0, s + t) := by
  intro t
  induction t with
  | zero =>
    intro s
    simp [extBack]
  | succ t ih =>
    intro s
    rw [extBack_succ, if_pos ⟨Nat.succ_pos t, Nat.succ_pos t, rfl, rfl⟩]
    have h : s + (t + 1) = (s + 1) + t := by omega
    rw [h]
    exact ih (s + 1)

/-- The non-junk forward widening extends a diagonal block at the origin to
the whole diagonal. -/
theorem selfFwd (X : List String) :
    ∀ (fuel k : Nat), k ≤ X.length → X.length ≤ k + fuel →
      extFwd false (fun _ => false) X X X.length X.length fuel (0, 0, k) =
        (0, 0, X.length) := by
  intro fuel
  induction fuel with
  | zero =>
    intro k h1 h2
    have hk : k = X.length := by omega
    subst hk
    rfl
  | succ fuel ih =>
    intro k h1 h2
    by_cases hk : k < X.length
    · rw [extFwd_succ, if_pos ⟨by simpa using hk, by simpa using hk, rfl, rfl⟩]
      exact ih (k + 1) (by omega) (by omega)
    · have hkn : k = X.length := by omega
      subst hkn
      rw [extFwd_succ, if_neg]
      intro h
      have h3 := h.1
      simp at h3

/-- With no junk, the junk widening loops do nothing. -/
theorem selfJunkBack (X : List String) (alo blo fuel : Nat) (st : Nat × Nat × Nat) :
    extBack true (fun _ => false) X X alo blo fuel st = st := by
  cases fuel with
  | zero => rfl
  | succ fuel =>
    rw [extBack_succ, if_neg]
    intro h
    exact absurd h.2.2.1 (by simp)

/-- With no junk, the junk forward widening loop does nothing. -/
theorem selfJunkFwd (X : List String) (ahi bhi fuel : Nat) (st : Nat × Nat × Nat) :
    extFwd true (fun _ => false) X X ahi bhi fuel st = st := by
  cases fuel with
  | zero => rfl
  | succ fuel =>
    rw [extFwd_succ, if_neg]
    intro h
    exact absurd h.2.2.1 (by simp)

/-- On the self-diff, `find_longest_match` over the full rectangle returns
the whole diagonal. -/
theorem selfFlm (X : List String) :
    findLongestMatch (fun _ => false) X X (selfB2j X) 0 X.length 0 X.length =
      (0, 0, X.length) := by
  have hinit : SelfInv X 0 (fun _ => 0) (0, 0, 0) := by
    refine ⟨rfl, by simp, ?_, fun j => by simp, ?_⟩
    · have h0 : selfMaxD X 0 = 0 := rfl
      simp [h0]
    · have h0 : selfDrun X 0 = 0 := rfl
      simp [h0]
  have hch := selfChain X X.length 0 (fun _ => 0) (0, 0, 0) (by omega) hinit
  unfold findLongestMatch
  dsimp only
  rw [Nat.sub_zero]
  obtain ⟨hdiag, hrange, _, _, _⟩ := hch
  rcases hc : (flmOuter X (selfB2j X) 0 X.length (List.range' 0 X.length)
      (fun _ => 0) (0, 0, 0)).2 with ⟨t, t2, sz⟩
  rw [hc] at hdiag hrange
  dsimp only at hdiag hrange
  subst hdiag
  dsimp only
  rw [selfBack X t sz, selfFwd X (X.length + 1) (sz + t) (by omega) (by omega)]
  rw [selfJunkBack, selfJunkFwd]

/-- The queue loop on an empty queue returns the collected blocks. -/
theorem mbQueue_nil {α : Type} [DecidableEq α] [Inhabited α] (isjunk : α → Bool)
    (a b : List α) (b2j : α → List Nat) (fuel : Nat)
    (acc : List (Nat × Nat × Nat)) :
    mbQueue isjunk a b b2j fuel [] acc = acc := by
  cases fuel <;> rfl

/-- A line of the self-diff never counts as added. -/
theorem twoSpace_not_plus (t : String) :
    pyStartsWith ("  " ++ t) ("+ ") = false := rfl

/-- A line of the self-diff never counts as removed. -/
theorem twoSpace_not_minus (t : String) :
    pyStartsWith ("  " ++ t) ("- ") = false := rfl

/-- The Agent 4 summary loop ignores lines that carry neither marker. -/
theorem addedRemoved_all_neutral :
    ∀ (l : List String),
      (∀ d, d ∈ l → pyStartsWith d ("+ ") = false ∧
        pyStartsWith d ("- ") = false) →
      addedRemoved l = ([], []) := by
  intro l
  induction l with
  | nil => intro _; rfl
  | cons d rest ih =>
    intro hall
    have hd := hall d (by simp)
    unfold addedRemoved
    simp only [List.foldl_cons, hd.1, hd.2]
    rw [if_neg (by simp [hd.1]), if_neg (by simp [hd.2])]
    exact ih (fun d2 hd2 => hall d2 (by simp [hd2]))

/-- C6: diffing any token sequence against itself yields only Unchanged
entries (every line is a `"  "`-prefixed copy of the corresponding token),
and the Added/Removed summary lists of the comparison agent are both
empty. -/
theorem c6_diff_idempotent (X : List String) :
    ndiffS X X = X.map (fun t => "  " ++ t) ∧
    addedRemoved (ndiffS X X) = ([], []) := by
  have hmain : ndiffS X X = X.map (fun t => "  " ++ t) := by
    by_cases h : X.length = 0
    · have hnil : X = [] := List.length_eq_zero.mp h
      subst hnil
      rfl
    · have hflm : findLongestMatch (fun _ => false) X X
          (b2jOf (fun _ => false) true X) 0 X.length 0 X.length =
          (0, 0, X.length) := selfFlm X
      have hraw : mbQueue (fun _ => false) X X (b2jOf (fun _ => false) true X)
          (X.length + X.length + 1) [(0, X.length, 0, X.length)] [] =
          [(0, 0, X.length)] := by
        simp only [mbQueue]
        rw [hflm]
        rw [if_pos (by simpa using h)]
        rw [if_neg (by simp), if_neg (by simp)]
        rw [mbQueue_nil]
        rfl
      have hblocks : getMatchingBlocks (fun _ => false) true X X =
          [(0, 0, X.length), (X.length, X.length, 0)] := by
        unfold getMatchingBlocks
        dsimp only
        rw [hraw]
        have hsort : sortLe lexLeTriple [(0, 0, X.length)] =
            [(0, 0, X.length)] := rfl
        rw [hsort]
        simp only [collapseGo]
        rw [if_pos (by simp)]
        rw [if_pos (by simpa using h)]
        simp
      have hops : getOpcodes (fun _ => false) true X X =
          [(DTag.equal, 0, X.length, 0, X.length)] := by
        unfold getOpcodes
        rw [hblocks]
        simp only [opcodesGo]
        rw [if_neg (by simp), if_neg (by simp), if_neg (by simp),
          if_pos (by simpa using h)]
        rw [if_neg (by simp), if_neg (by simp), if_neg (by simp),
          if_neg (by simp)]
        simp
      unfold ndiffS differCompare
      rw [hops]
      simp only [List.flatMap_cons, List.flatMap_nil, List.append_nil]
      unfold dumpD
      rw [Nat.sub_zero, List.drop_zero, List.take_length]
      rfl
  refine ⟨hmain, ?_⟩
  rw [hmain]
  apply addedRemoved_all_neutral
  intro d hd
  obtain ⟨t, _, rfl⟩ := List.mem_map.mp hd
  exact ⟨twoSpace_not_plus t, twoSpace_not_minus t⟩
